import Mathlib

/-!
# Verification of the CvJachai resume ranking / classification service

Shallow embedding of the deterministic core of the repository: Python
string primitives (`in`, `.lower()`, `.split()`, `pathlib` suffixes,
`dict` insertion-order semantics, list slicing), the file-ingestion
pipeline (`process_resume_files`, `extract_resumes_from_zip`,
`extract_all_resume_texts`), the scoring functions
(`calculate_skill_bonus`, the similarity and classification blends) and
the ranker (stable descending sort + truncation).  Numeric values are
modelled by rationals; `round(x, 4)` is modelled by rounding to the
nearest multiple of `1/10000`.
-/

namespace CvJachai

/-! ## Python string and path primitives -/

/-- Helper for `pyIn`: does `needle` occur as a contiguous block of `hay`? -/
def pyInAux (needle : List Char) : List Char → Bool
  | [] => needle.isEmpty
  | c :: cs => needle.isPrefixOf (c :: cs) || pyInAux needle cs

/-- Python's substring test `needle in hay` on text, as containment of the
character sequence. -/
def pyIn (needle hay : String) : Bool :=
  pyInAux needle.data hay.data

/-- Python's `str.lower()` (ASCII case folding, which is all the code relies on). -/
def pyLower (s : String) : String :=
  ⟨s.data.map Char.toLower⟩

/-- Helper for `pySplitWs`: accumulate the current word (reversed) while
scanning the characters. -/
def splitWsAux : List Char → List Char → List String
  | [], acc => if acc.isEmpty then [] else [⟨acc.reverse⟩]
  | c :: cs, acc =>
    if c.isWhitespace then
      if acc.isEmpty then splitWsAux cs [] else (⟨acc.reverse⟩ : String) :: splitWsAux cs []
    else splitWsAux cs (c :: acc)

/-- Python's `str.split()` with no argument: split on runs of whitespace,
producing no empty words. -/
def pySplitWs (s : String) : List String :=
  splitWsAux s.data []

/-- `pathlib.PurePath.suffix`: the final `"."`-separated extension of a file
name, empty when the name has no dot, ends with its only dot, or starts with
its only dot. -/
def pySuffix (name : String) : String :=
  let cs := name.data
  match cs.reverse.findIdx? (· = '.') with
  | none => ""
  | some j =>
    let i := cs.length - 1 - j
    if 0 < i ∧ i < cs.length - 1 then ⟨cs.drop i⟩ else ""

/-- `Path(name).suffix.lower()`, the extension test used throughout the code. -/
def pyExt (name : String) : String :=
  pyLower (pySuffix name)

/-! ## Python dict and list-slice semantics -/

/-- An insertion-ordered string-keyed dictionary, as Python `dict`. -/
abbrev Dict (β : Type) := List (String × β)

/-- Python `d[k] = v`: update the value in place when the key exists
(keeping its position), append otherwise. -/
def dictInsert (d : Dict β) (k : String) (v : β) : Dict β :=
  match d with
  | [] => [(k, v)]
  | (k', v') :: rest => if k' = k then (k', v) :: rest else (k', v') :: dictInsert rest k v

/-- Python `d.update(e)`: fold `dictInsert` over the entries of `e`. -/
def dictUpdate (d e : Dict β) : Dict β :=
  e.foldl (fun acc kv => dictInsert acc kv.1 kv.2) d

/-- Python's slice `l[:k]` for an `int` index `k` (negative indices count
from the end). -/
def pyTake (k : Int) (l : List α) : List α :=
  if k < 0 then l.take (l.length + k).toNat else l.take k.toNat

/-! ## Rounding -/

/-- `round(x, 4)`: round to the nearest multiple of `1/10000`
(modelling CPython's 4-decimal rounding of the surfaced scores). -/
def round4 (q : ℚ) : ℚ :=
  (round (q * 10000) : ℤ) / 10000

/-! ## `calculate_skill_bonus` (src/utils.py lines 126-168) -/

/-- The 21 probed experience phrases: `"<m>+ years"`, `"<m> years"` and
`"<m+i> years"` for `i = 1, …, 19`. -/
def experience_indicators (min_experience : Int) : List String :=
  [toString min_experience ++ "+ years", toString min_experience ++ " years"]
    ++ (List.range' 1 19).map (fun i => toString (min_experience + i) ++ " years")

/-- The skill-counting loop of `calculate_skill_bonus`. -/
def skillsFoundLoop (resume_lower : String) : List String → Nat → Nat
  | [], acc => acc
  | s :: rest, acc =>
    skillsFoundLoop resume_lower rest (if pyIn (pyLower s) resume_lower then acc + 1 else acc)

/-- The experience-indicator loop of `calculate_skill_bonus`: add `0.3` and
break at the first phrase found. -/
def experienceLoop (resume_lower : String) : List String → ℚ → ℚ
  | [], bonus => bonus
  | ind :: rest, bonus =>
    if pyIn (pyLower ind) resume_lower then bonus + 3/10
    else experienceLoop resume_lower rest bonus

/-- `calculate_skill_bonus(resume_text, skills, min_experience)` from
src/utils.py: skill fraction times `0.5`, plus a flat `0.3` when an
experience phrase is probed and found, capped at `1.0`. -/
def calculate_skill_bonus (resume_text : String) (skills : List String)
    (min_experience : Int) : ℚ :=
  let resume_lower := pyLower resume_text
  let bonus : ℚ := 0
  let bonus :=
    if skills.length ≠ 0 then
      let skills_found := skillsFoundLoop resume_lower skills 0
      if 0 < skills.length then bonus + ((skills_found : ℚ) / (skills.length : ℚ)) * (1/2)
      else bonus
    else bonus
  let bonus :=
    if 0 < min_experience then
      experienceLoop resume_lower (experience_indicators min_experience) bonus
    else bonus
  min bonus 1

/-- The skill/experience bonus exactly as the specification states it: the
experience component is `0.3` whenever one of the 21 probed phrases occurs in
the lower-cased text, with no condition on `min_experience` (spec side, for
comparison with `calculate_skill_bonus`). -/
def claimSkillBonus (resume_text : String) (skills : List String)
    (min_experience : Int) : ℚ :=
  let lower := pyLower resume_text
  let skillComponent : ℚ :=
    if skills.length = 0 then 0
    else ((skills.countP (fun s => pyIn (pyLower s) lower) : ℚ) / (skills.length : ℚ)) * (1/2)
  let experienceComponent : ℚ :=
    if (experience_indicators min_experience).any (fun ind => pyIn (pyLower ind) lower) then 3/10
    else 0
  min (skillComponent + experienceComponent) 1

/-- The skill/experience bonus as amended: identical to the specification's
formula except that the experience phrases are only probed when
`min_experience > 0` (as the code does). -/
def claimSkillBonusAmended (resume_text : String) (skills : List String)
    (min_experience : Int) : ℚ :=
  let lower := pyLower resume_text
  let skillComponent : ℚ :=
    if skills.length = 0 then 0
    else ((skills.countP (fun s => pyIn (pyLower s) lower) : ℚ) / (skills.length : ℚ)) * (1/2)
  let experienceComponent : ℚ :=
    if 0 < min_experience ∧
        (experience_indicators min_experience).any (fun ind => pyIn (pyLower ind) lower) then 3/10
    else 0
  min (skillComponent + experienceComponent) 1

/-! ## Ranker: stable descending sort + Python slice
(src/app.py lines 105-107, src/views.py lines 110-112) -/

/-- The descending comparison used by `results.sort(key=..., reverse=True)`:
`a` precedes `b` when its key is at least `b`'s. -/
def keyGE (key : α → ℚ) : α → α → Prop :=
  fun a b => key b ≤ key a

instance (key : α → ℚ) : DecidableRel (keyGE key) :=
  fun a b => inferInstanceAs (Decidable (key b ≤ key a))

instance (key : α → ℚ) : IsTotal α (keyGE key) :=
  ⟨fun a b => le_total (key b) (key a)⟩

instance (key : α → ℚ) : IsTrans α (keyGE key) :=
  ⟨fun _ _ _ hab hbc => le_trans hbc hab⟩

/-- Python's stable `list.sort(key=..., reverse=True)`, as insertion sort by
the descending key relation (any stable sort computes the same list). -/
def sortByScoreDesc (key : α → ℚ) (l : List α) : List α :=
  l.insertionSort (keyGE key)

/-- The ranker shared by both variants: stable-sort descending by score,
then truncate with Python slice semantics `results[:top_k]`. -/
def rankSlice (key : α → ℚ) (top_k : Int) (l : List α) : List α :=
  pyTake top_k (sortByScoreDesc key l)

/-! ## Similarity-mode scoring (src/app.py lines 84-107) -/

/-- One entry of `ranked_resumes` in the similarity variant. -/
structure SimResult where
  filename : String
  similarity_score : ℚ
  bonus_score : ℚ
  final_score : ℚ
deriving DecidableEq

/-- The per-resume scoring step of `rank_resumes`: the cosine similarity is a
black-box input; the bonus is computed only when skills were supplied or
`min_experience > 0`; the final score is `similarity*0.8 + bonus*0.2`; all
surfaced values are rounded to 4 decimals. -/
def scoreSimResume (skills_list : List String) (min_experience : Int)
    (fn text : String) (sim : ℚ) : SimResult :=
  let bonus_score : ℚ :=
    if skills_list.length ≠ 0 ∨ 0 < min_experience then
      calculate_skill_bonus text skills_list min_experience
    else 0
  let final_score := sim * (8/10) + bonus_score * (2/10)
  { filename := fn
    similarity_score := round4 sim
    bonus_score := round4 bonus_score
    final_score := round4 final_score }

/-- The scoring-and-ranking core of the `/rank_resumes` handler, over the
extracted texts paired with their black-box similarity scores. -/
def rank_resumes (skills_list : List String) (min_experience : Int) (top_k : Int)
    (scored : List (String × String × ℚ)) : List SimResult :=
  let results := scored.map (fun e => scoreSimResume skills_list min_experience e.1 e.2.1 e.2.2)
  rankSlice SimResult.final_score top_k results

/-! ## Classification-mode scoring (src/model.py, src/views.py lines 77-112) -/

/-- Modelled from the spec: the gradient-boosted classifier itself is an
external artifact loaded from disk (`best_classifier.pkl`), absent from the
sources; per the spec it returns the argmax category together with the full
probability distribution, so its `predict` is the first index attaining the
maximum of `predict_proba`. -/
def argmaxIdx : List ℚ → Nat
  | [] => 0
  | x :: xs => if xs.all (fun y => decide (y ≤ x)) then 0 else argmaxIdx xs + 1

/-- The dictionary returned by `ResumeClassifier.predict`. -/
structure Prediction where
  predicted_category : String
  confidence : ℚ
  all_predictions : List (String × ℚ)

/-- `ResumeClassifier.predict` (src/model.py lines 72-90), with the external
model's probability output supplied as input: the predicted category and its
probability, plus all categories sorted by descending probability. -/
def classifierPredict (categories : List String) (probs : List ℚ) : Prediction :=
  let prediction := argmaxIdx probs
  { predicted_category := categories.getD prediction ""
    confidence := probs.getD prediction 0
    all_predictions := sortByScoreDesc Prod.snd (categories.zip probs) }

/-- The word-overlap relevance score.

Modelled from the spec: `calculate_job_relevance` is imported from the
utilities module by the classification view, but its definition is not
present in the sources; per the spec,
`jobRelevance = |lowercaseWords(jobCircular) ∩ lowercaseWords(resumeText)| /
|lowercaseWords(jobCircular)|`, and `0` when the job circular has no words. -/
def calculate_job_relevance (resume_text job_circular : String) : ℚ :=
  let jw := (pySplitWs (pyLower job_circular)).dedup
  let rw := (pySplitWs (pyLower resume_text)).dedup
  if jw.length = 0 then 0
  else ((jw.filter (fun w => rw.contains w)).length : ℚ) / (jw.length : ℚ)

/-- One entry of `ranked_resumes` in the classification variant. -/
structure ClassResult where
  filename : String
  predicted_category : String
  confidence : ℚ
  job_relevance : ℚ
  skill_bonus : ℚ
  final_score : ℚ
  top_categories : List (String × ℚ)
deriving DecidableEq

/-- The per-resume scoring step of `ResumeClassifyAPIView.post` (src/views.py
lines 81-108): `final_score = confidence*0.5 + relevance*0.3 + bonus*0.2`,
every surfaced sub-score rounded to 4 decimals. -/
def classifyResume (skills_list : List String) (min_experience : Int)
    (job_circular : String) (categories : List String)
    (fn text : String) (probs : List ℚ) : ClassResult :=
  let prediction := classifierPredict categories probs
  let relevance := calculate_job_relevance text job_circular
  let bonus : ℚ :=
    if skills_list.length ≠ 0 ∨ 0 < min_experience then
      calculate_skill_bonus text skills_list min_experience
    else 0
  let confidence := prediction.confidence
  let final_score := confidence * (1/2) + relevance * (3/10) + bonus * (2/10)
  { filename := fn
    predicted_category := prediction.predicted_category
    confidence := round4 confidence
    job_relevance := round4 relevance
    skill_bonus := round4 bonus
    final_score := round4 final_score
    top_categories := prediction.all_predictions.take 5 }

/-- The scoring-and-ranking core of the classification view, over the
extracted texts paired with the external model's probability outputs. -/
def classify_resumes (skills_list : List String) (min_experience : Int)
    (top_k : Int) (job_circular : String) (categories : List String)
    (batch : List (String × String × List ℚ)) : List ClassResult :=
  let results := batch.map
    (fun e => classifyResume skills_list min_experience job_circular categories e.1 e.2.1 e.2.2)
  rankSlice ClassResult.final_score top_k results

/-! ## File-system model and ingestion
(src/utils.py lines 58-107) -/

/-- A path below the request's scratch directory, as its components. -/
abbrev FPath := List String

/-- The base name (final component) of a path. -/
def basename (p : FPath) : String :=
  p.getLastD ""

/-- The three directly-extractable document extensions. -/
def docExts : List String := [".pdf", ".docx", ".txt"]

/-- Writing a file into the scratch directory: a fresh path is appended to
the tree listing, an existing one is overwritten in place. -/
def dirInsert (dir : List FPath) (p : FPath) : List FPath :=
  if p ∈ dir then dir else dir ++ [p]

/-- `zip_ref.extractall(temp_dir)`: materialize every archive entry. -/
def extractall (dir : List FPath) (entries : List FPath) : List FPath :=
  entries.foldl dirInsert dir

/-- The `os.walk` loop of `extract_resumes_from_zip`: keep every file in the
tree whose extension is supported, keyed by base name (later files
overwrite earlier entries with the same base name). -/
def walkDocs (dir : List FPath) : Dict FPath :=
  (dir.filter (fun p => pyExt (basename p) ∈ docExts)).foldl
    (fun d p => dictInsert d (basename p) p) []

/-- `extract_resumes_from_zip(zip_path, temp_dir)` (src/utils.py lines
58-78): extract all entries into the scratch directory, then walk the whole
resulting tree; returns the filename-to-path mapping and the new tree. -/
def extract_resumes_from_zip (entries : List FPath) (temp_dir : List FPath) :
    Dict FPath × List FPath :=
  let dir' := extractall temp_dir entries
  (walkDocs dir', dir')

/-- An uploaded file: its declared (base) name, and — when it is an archive —
the entry paths it contains. -/
structure UploadedFile where
  filename : String
  zipEntries : List FPath
deriving DecidableEq

/-- Is an `Except` outcome the error case? -/
def isErr : Except ε α → Bool
  | .error _ => true
  | .ok _ => false

/-- The loop of `process_resume_files`, threading the scratch-directory tree
and the resolved-document mapping. -/
def processGo : List UploadedFile → List FPath → Dict FPath →
    Except String (Dict FPath)
  | [], _, resumes => .ok resumes
  | f :: rest, dir, resumes =>
    let temp_path : FPath := [f.filename]
    let dir := dirInsert dir temp_path
    let ext := pyExt f.filename
    if ext = ".zip" then
      let out := extract_resumes_from_zip f.zipEntries dir
      processGo rest out.2 (dictUpdate resumes out.1)
    else if ext ∈ docExts then
      processGo rest dir (dictInsert resumes f.filename temp_path)
    else
      .error ("Unsupported file format: " ++ f.filename)

/-- `process_resume_files(files, temp_dir)` (src/utils.py lines 81-107):
write each upload into the scratch directory; expand archives; add supported
documents directly; any other extension aborts the whole ingestion. -/
def process_resume_files (files : List UploadedFile) : Except String (Dict FPath) :=
  processGo files [] []

/-! ## Batch text collection (src/utils.py lines 110-123 and its callers) -/

/-- `extract_all_resume_texts(resumes)`: attempt extraction for every
resolved document (the extractor is a black-box input because the real one
reads the file system); successes are recorded, failures are logged and
skipped, and the function itself never fails. -/
def extract_all_resume_texts (extractText : FPath → Except String String)
    (resumes : Dict FPath) : Dict String :=
  resumes.foldl
    (fun acc kv =>
      match extractText kv.2 with
      | .ok t => dictInsert acc kv.1 t
      | .error _ => acc)
    []

/-- The guard both request handlers run right after collection (src/app.py
lines 71-75, src/views.py lines 70-75): an empty mapping fails the whole
request with a 400 "no extractable text" error. -/
def collectTextsOrFail (extractText : FPath → Except String String)
    (resumes : Dict FPath) : Except String (Dict String) :=
  let resume_texts := extract_all_resume_texts extractText resumes
  if resume_texts.isEmpty then .error "Could not extract text from any resume files"
  else .ok resume_texts

/-! ## Classification feature statistics (src/model.py lines 46-70) -/

/-- The four text statistics of `ResumeClassifier._build_features`: character
count, word count (1 when there are no words), mean word length (0 when there
are no words), and distinct-word ratio. -/
def build_text_stats (resume_text : String) : ℚ × ℚ × ℚ × ℚ :=
  let words := pySplitWs resume_text
  let word_count : ℚ := if words.length ≠ 0 then (words.length : ℚ) else 1
  ( (resume_text.length : ℚ),
    word_count,
    if words.length ≠ 0 then ((words.map String.length).sum : ℚ) / (words.length : ℚ) else 0,
    ((words.dedup.length : ℚ)) / word_count )

/-! ## `top_k` validation (src/serializers.py lines 17-21) -/

/-- The classification variant's serializer constraint on `top_k`
(`min_value=1`); the similarity variant performs no such validation. -/
def serializer_top_k_valid (k : Int) : Bool :=
  decide (1 ≤ k)

/-! ## Lemmas about `calculate_skill_bonus` -/

/-- The skill loop counts exactly the skills whose lower-cased form occurs in
the lower-cased resume text. -/
theorem skillsFoundLoop_eq (rl : String) :
    ∀ (skills : List String) (acc : Nat),
      skillsFoundLoop rl skills acc = acc + skills.countP (fun s => pyIn (pyLower s) rl)
  | [], acc => by simp [skillsFoundLoop]
  | s :: rest, acc => by
    simp only [skillsFoundLoop, List.countP_cons]
    rw [skillsFoundLoop_eq rl rest]
    by_cases h : pyIn (pyLower s) rl
    · simp [h]
      omega
    · simp [h]

/-- The experience loop adds the flat `0.3` exactly once when some indicator
occurs, regardless of how many do (the loop breaks at the first match). -/
theorem experienceLoop_eq (rl : String) :
    ∀ (inds : List String) (b : ℚ),
      experienceLoop rl inds b =
        if inds.any (fun ind => pyIn (pyLower ind) rl) then b + 3/10 else b
  | [], b => by simp [experienceLoop]
  | ind :: rest, b => by
    simp only [experienceLoop, List.any_cons]
    by_cases h : pyIn (pyLower ind) rl
    · simp [h]
    · rw [experienceLoop_eq rl rest]
      simp [h]

/-- C1 (counterexample): as stated the claim fails at `minExperience = 0`.
With no skills requested and the text `"java 5 years"`, the claimed formula
probes the phrases `"0+ years"`, `"0 years"`, `"1 years"`, …, `"19 years"`,
finds `"5 years"`, and yields `0.3`; the code skips the experience probe
entirely when `min_experience` is not positive and returns `0`. -/
theorem claim_C1_counterexample :
    calculate_skill_bonus "java 5 years" [] 0 = 0 ∧
      claimSkillBonus "java 5 years" [] 0 = 3/10 ∧
      calculate_skill_bonus "java 5 years" [] 0 ≠ claimSkillBonus "java 5 years" [] 0 := by
  have h1 : calculate_skill_bonus "java 5 years" [] 0 = 0 := by rfl
  have h2 : claimSkillBonus "java 5 years" [] 0 = 3/10 := by
    simp +decide only [claimSkillBonus]
    norm_num
  exact ⟨h1, h2, by rw [h1, h2]; norm_num⟩

/-- C1 (amended): for every resume text, skill list and `minExperience`,
`calculate_skill_bonus` returns `min(skillComponent + experienceComponent, 1)`
with `skillComponent = (K/N)*0.5` for `N > 0` and `0` for `N = 0`, and with
`experienceComponent = 0.3` exactly when `minExperience > 0` **and** one of
the 21 probed year-phrases occurs in the lower-cased text (never fractional,
never added twice); when `minExperience = 0` the experience probe is skipped
and the component is `0`. -/
theorem claim_C1_amended (text : String) (skills : List String) (m : Int) :
    calculate_skill_bonus text skills m = claimSkillBonusAmended text skills m := by
  simp only [calculate_skill_bonus, claimSkillBonusAmended]
  rw [skillsFoundLoop_eq, experienceLoop_eq]
  by_cases hs : skills.length = 0
  · by_cases hm : 0 < m
    · by_cases ha :
        (experience_indicators m).any (fun ind => pyIn (pyLower ind) (pyLower text)) <;>
        simp [hs, hm, ha]
    · simp [hs, hm]
  · have hs' : 0 < skills.length := Nat.pos_of_ne_zero hs
    by_cases hm : 0 < m
    · by_cases ha :
        (experience_indicators m).any (fun ind => pyIn (pyLower ind) (pyLower text)) <;>
        simp [hs, hs', hm, ha, add_comm]
    · simp [hs, hs', hm]

/-! ## Lemmas about the ranker -/

/-- Inserting an element whose key differs from `v` does not change the
sublist of elements with key `v`. -/
theorem filter_orderedInsert_ne (key : α → ℚ) (a : α) (v : ℚ) (hne : ¬ key a = v) :
    ∀ l : List α,
      (List.orderedInsert (keyGE key) a l).filter (fun x => decide (key x = v)) =
        l.filter (fun x => decide (key x = v))
  | [] => by simp [List.orderedInsert, hne]
  | b :: t => by
    simp only [List.orderedInsert]
    by_cases h : keyGE key a b
    · simp [h, List.filter_cons, hne]
    · simp only [if_neg h, List.filter_cons]
      rw [filter_orderedInsert_ne key a v hne t]

/-- Inserting `a` into a list sorted descending by key places it before every
element of equal key: the sublist of elements with key `key a` gains `a` at
its front. -/
theorem filter_orderedInsert_eq (key : α → ℚ) (a : α) :
    ∀ l : List α, l.Sorted (keyGE key) →
      (List.orderedInsert (keyGE key) a l).filter (fun x => decide (key x = key a)) =
        a :: l.filter (fun x => decide (key x = key a))
  | [], _ => by simp [List.orderedInsert]
  | b :: t, h => by
    simp only [List.orderedInsert]
    by_cases hr : keyGE key a b
    · simp [hr, List.filter_cons]
    · have hlt : key a < key b := lt_of_not_le hr
      have hne : ¬ key b = key a := ne_of_gt hlt
      rw [if_neg hr]
      simp only [List.filter_cons, hne, decide_eq_true_eq, if_false, ite_false]
      rw [filter_orderedInsert_eq key a t (List.sorted_cons.mp h).2]

/-- Stability of the ranker's sort: for every key value `v`, the elements
whose key is `v` appear in the sorted output in exactly their original
relative order. -/
theorem sortByScoreDesc_stable (key : α → ℚ) (v : ℚ) :
    ∀ l : List α,
      (sortByScoreDesc key l).filter (fun x => decide (key x = v)) =
        l.filter (fun x => decide (key x = v))
  | [] => rfl
  | a :: t => by
    simp only [sortByScoreDesc, List.insertionSort]
    by_cases hv : key a = v
    · subst hv
      rw [filter_orderedInsert_eq key a _ (List.sorted_insertionSort _ t)]
      have := sortByScoreDesc_stable key (key a) t
      simp only [sortByScoreDesc] at this
      simp [this, List.filter_cons]
    · rw [filter_orderedInsert_ne key a v hv]
      have := sortByScoreDesc_stable key v t
      simp only [sortByScoreDesc] at this
      simp [this, List.filter_cons, hv]

/-- The sorted output is a permutation of the input. -/
theorem sortByScoreDesc_perm (key : α → ℚ) (l : List α) :
    List.Perm (sortByScoreDesc key l) l :=
  List.perm_insertionSort _ l

/-- C3: for every list of scored results and every `topK ≥ 1`, the ranker
returns the results stably sorted by final score descending (the sorted list
is non-increasing in the key, and results with equal score keep their
original relative order) truncated to the first `topK`; a `topK` larger than
the population returns the whole sorted population, and the output length is
always `min topK (number of results)` — it never fails. -/
theorem claim_C3 {α : Type} (key : α → ℚ) (l : List α) (k : Int) (v : ℚ)
    (hk : 1 ≤ k) :
    List.Sorted (keyGE key) (sortByScoreDesc key l) ∧
      (sortByScoreDesc key l).filter (fun x => decide (key x = v)) =
        l.filter (fun x => decide (key x = v)) ∧
      rankSlice key k l = (sortByScoreDesc key l).take k.toNat ∧
      ((l.length : Int) ≤ k → rankSlice key k l = sortByScoreDesc key l) ∧
      (rankSlice key k l).length = min k.toNat l.length := by
  have hnotneg : ¬ k < 0 := by omega
  have hslice : rankSlice key k l = (sortByScoreDesc key l).take k.toNat := by
    simp [rankSlice, pyTake, hnotneg]
  have hlen : (sortByScoreDesc key l).length = l.length :=
    List.length_insertionSort _ l
  refine ⟨List.sorted_insertionSort _ l, sortByScoreDesc_stable key v l, hslice, ?_, ?_⟩
  · intro hall
    rw [hslice]
    exact List.take_of_length_le (by omega)
  · rw [hslice, List.length_take, hlen]

/-- C2: every entry of the similarity-mode ranked output arises from an input
resume, and its surfaced `final_score` is exactly
`round(similarity*0.8 + bonus*0.2, 4)` where the bonus is
`calculate_skill_bonus` when skills were supplied or `min_experience > 0`,
and `0` otherwise (the other surfaced scores being those values rounded). -/
theorem claim_C2 (skills_list : List String) (min_experience : Int) (top_k : Int)
    (scored : List (String × String × ℚ)) (r : SimResult)
    (hr : r ∈ rank_resumes skills_list min_experience top_k scored) :
    ∃ e ∈ scored,
      r.filename = e.1 ∧
      r.similarity_score = round4 e.2.2 ∧
      r.bonus_score = round4 (if skills_list.length ≠ 0 ∨ 0 < min_experience then
          calculate_skill_bonus e.2.1 skills_list min_experience else 0) ∧
      r.final_score = round4 (e.2.2 * (8/10) +
        (if skills_list.length ≠ 0 ∨ 0 < min_experience then
          calculate_skill_bonus e.2.1 skills_list min_experience else 0) * (2/10)) := by
  have hmem : r ∈ (scored.map
      (fun e => scoreSimResume skills_list min_experience e.1 e.2.1 e.2.2)) := by
    have h1 : r ∈ sortByScoreDesc SimResult.final_score (scored.map
        (fun e => scoreSimResume skills_list min_experience e.1 e.2.1 e.2.2)) := by
      have := hr
      simp only [rank_resumes, rankSlice, pyTake] at this
      split at this
      · exact List.take_subset _ _ this
      · exact List.take_subset _ _ this
    exact (List.mem_insertionSort _).mp h1
  obtain ⟨e, he, hre⟩ := List.mem_map.mp hmem
  refine ⟨e, he, ?_, ?_, ?_, ?_⟩ <;> rw [← hre] <;> simp [scoreSimResume]

/-- C10: the similarity (FastAPI) variant accepts `top_k` without validation:
`top_k = 0` yields an empty ranked list, and a negative `top_k` yields the
descending order with its last `|top_k|` entries removed (Python slice
semantics), never an error; only the classification variant's serializer
(`min_value=1`) enforces `top_k ≥ 1`. -/
theorem claim_C10 (skills_list : List String) (min_experience : Int)
    (scored : List (String × String × ℚ)) (n : Nat) (k : Int) (hn : 0 < n) :
    rank_resumes skills_list min_experience 0 scored = [] ∧
      rank_resumes skills_list min_experience (-(n : Int)) scored =
        (sortByScoreDesc SimResult.final_score (scored.map
          (fun e => scoreSimResume skills_list min_experience e.1 e.2.1 e.2.2))).take
          (scored.length - n) ∧
      (serializer_top_k_valid k = true ↔ 1 ≤ k) := by
  refine ⟨?_, ?_, by simp [serializer_top_k_valid]⟩
  · simp [rank_resumes, rankSlice, pyTake]
  · simp only [rank_resumes, rankSlice, pyTake]
    have hlen : (sortByScoreDesc SimResult.final_score (scored.map
        (fun e => scoreSimResume skills_list min_experience e.1 e.2.1 e.2.2))).length =
        scored.length := by
      simp only [sortByScoreDesc]
      rw [List.length_insertionSort, List.length_map]
    rcases Nat.eq_zero_or_pos n with h0 | hpos
    · omega
    · rw [if_pos (by omega), hlen]
      congr 1
      omega

/-! ## Lemmas about the classifier scoring -/

/-- The confidence surfaced by the classifier wrapper is a maximum of the
probability distribution: `argmaxIdx` points at a greatest element. -/
theorem argmaxIdx_is_max : ∀ (l : List ℚ), ∀ p ∈ l, p ≤ l.getD (argmaxIdx l) 0
  | [] => by simp
  | x :: xs => by
    intro p hp
    by_cases hall : xs.all (fun y => decide (y ≤ x))
    · have hx : ∀ y ∈ xs, y ≤ x := by
        intro y hy
        simpa using List.all_eq_true.mp hall y hy
      simp only [argmaxIdx, if_pos hall, List.getD]
      rcases List.mem_cons.mp hp with h | h
      · simp [h]
      · simpa using hx p h
    · have hex : ∃ y ∈ xs, x < y := by
        by_contra hno
        push_neg at hno
        exact hall (List.all_eq_true.mpr (fun y hy => by simpa using (hno y hy)))
      simp only [argmaxIdx, if_neg hall]
      have hgd : (x :: xs).getD (argmaxIdx xs + 1) 0 = xs.getD (argmaxIdx xs) 0 := by
        simp [List.getD]
      rw [hgd]
      rcases List.mem_cons.mp hp with h | h
      · obtain ⟨y, hy, hxy⟩ := hex
        exact h ▸ le_trans (le_of_lt hxy) (argmaxIdx_is_max xs y hy)
      · exact argmaxIdx_is_max xs p h

/-- C4: every entry of the classification-mode ranked output arises from an
input resume, its surfaced `final_score` equals
`round(confidence*0.5 + jobRelevance*0.3 + skillBonus*0.2, 4)` where the
confidence is the predicted (argmax) category's probability — a greatest
element of the classifier's output distribution — and each surfaced
sub-score is that quantity rounded to 4 decimal places. -/
theorem claim_C4 (skills_list : List String) (min_experience : Int) (top_k : Int)
    (job_circular : String) (categories : List String)
    (batch : List (String × String × List ℚ)) (r : ClassResult)
    (hr : r ∈ classify_resumes skills_list min_experience top_k job_circular categories batch) :
    ∃ e ∈ batch,
      r.filename = e.1 ∧
      r.confidence = round4 (e.2.2.getD (argmaxIdx e.2.2) 0) ∧
      r.job_relevance = round4 (calculate_job_relevance e.2.1 job_circular) ∧
      r.skill_bonus = round4 (if skills_list.length ≠ 0 ∨ 0 < min_experience then
          calculate_skill_bonus e.2.1 skills_list min_experience else 0) ∧
      r.final_score = round4 ((e.2.2.getD (argmaxIdx e.2.2) 0) * (1/2) +
        (calculate_job_relevance e.2.1 job_circular) * (3/10) +
        (if skills_list.length ≠ 0 ∨ 0 < min_experience then
          calculate_skill_bonus e.2.1 skills_list min_experience else 0) * (2/10)) ∧
      ∀ p ∈ e.2.2, p ≤ e.2.2.getD (argmaxIdx e.2.2) 0 := by
  have hmem : r ∈ (batch.map (fun e =>
      classifyResume skills_list min_experience job_circular categories e.1 e.2.1 e.2.2)) := by
    have h1 : r ∈ sortByScoreDesc ClassResult.final_score (batch.map (fun e =>
        classifyResume skills_list min_experience job_circular categories e.1 e.2.1 e.2.2)) := by
      have := hr
      simp only [classify_resumes, rankSlice, pyTake] at this
      split at this
      · exact List.take_subset _ _ this
      · exact List.take_subset _ _ this
    exact (List.mem_insertionSort _).mp h1
  obtain ⟨e, he, hre⟩ := List.mem_map.mp hmem
  refine ⟨e, he, ?_, ?_, ?_, ?_, ?_, argmaxIdx_is_max e.2.2⟩ <;> rw [← hre] <;>
    simp [classifyResume, classifierPredict]

/-! ## Lemmas about the job-relevance score -/

/-- Deduplicating a list does not change its finset of elements. -/
theorem dedup_toFinset (l : List String) : l.dedup.toFinset = l.toFinset := by
  ext w
  simp [List.mem_dedup]

/-- C7: the job-relevance sub-score equals the number of distinct lower-cased
words shared by the job circular and the resume text divided by the number of
distinct lower-cased words of the job circular, and is `0` when the job
circular has no words. -/
theorem claim_C7 (resume_text job_circular : String) :
    calculate_job_relevance resume_text job_circular =
      (if (pySplitWs (pyLower job_circular)).toFinset.card = 0 then 0
       else (((pySplitWs (pyLower job_circular)).toFinset ∩
          (pySplitWs (pyLower resume_text)).toFinset).card : ℚ) /
         ((pySplitWs (pyLower job_circular)).toFinset.card : ℚ)) := by
  simp only [calculate_job_relevance]
  set jl := pySplitWs (pyLower job_circular) with hjl
  set rl := pySplitWs (pyLower resume_text) with hrl
  have hcard : jl.toFinset.card = jl.dedup.length := List.card_toFinset jl
  have hinter : (jl.dedup.filter (fun w => rl.dedup.contains w)).length =
      (jl.toFinset ∩ rl.toFinset).card := by
    have hnd : (jl.dedup.filter (fun w => rl.dedup.contains w)).Nodup :=
      (List.nodup_dedup jl).filter _
    rw [← List.toFinset_card_of_nodup hnd, List.toFinset_filter, dedup_toFinset]
    congr 1
    rw [← Finset.filter_mem_eq_inter]
    apply Finset.filter_congr
    intro w _
    simp [List.contains_iff_exists_mem_beq, List.mem_dedup, Finset.mem_coe, List.mem_toFinset]
  rw [hcard, hinter]

/-! ## Lemmas about the feature statistics -/

/-- C8: building the feature statistics never divides by zero — the
word-count feature is at least `1` — and the four statistics are: character
count; word count (taken as `1` for a document with no whitespace-split
words); mean word length (`0` when there are no words); and the number of
distinct words divided by the word count.  In particular an empty document
yields `(charCount, 1, 0, 0)`. -/
theorem claim_C8 (text : String) :
    build_text_stats text =
      ((text.length : ℚ),
       (if pySplitWs text = [] then 1 else ((pySplitWs text).length : ℚ)),
       (if pySplitWs text = [] then 0
        else (((pySplitWs text).map String.length).sum : ℚ) / ((pySplitWs text).length : ℚ)),
       (((pySplitWs text).toFinset.card : ℚ) /
        (if pySplitWs text = [] then 1 else ((pySplitWs text).length : ℚ)))) ∧
      (pySplitWs text = [] → build_text_stats text = ((text.length : ℚ), 1, 0, 0)) ∧
      0 < (build_text_stats text).2.1 := by
  have hcard : ((pySplitWs text).toFinset.card : ℚ) = ((pySplitWs text).dedup.length : ℚ) := by
    rw [List.card_toFinset]
  constructor
  · simp only [build_text_stats, hcard]
    by_cases h : pySplitWs text = []
    · simp [h]
    · have hlen : (pySplitWs text).length ≠ 0 := by
        simpa [List.length_eq_zero] using h
      simp [h, hlen]
  constructor
  · intro h
    simp [build_text_stats, h]
  · simp only [build_text_stats]
    by_cases h : (pySplitWs text).length ≠ 0
    · simp only [if_pos h]
      exact_mod_cast Nat.pos_of_ne_zero h
    · simp [h]

/-! ## Lemmas about ingestion -/

/-- The ingestion loop fails exactly when some uploaded file's extension is
outside the supported set, whatever state it is in. -/
theorem processGo_error_iff :
    ∀ (files : List UploadedFile) (dir : List FPath) (resumes : Dict FPath),
      isErr (processGo files dir resumes) = true ↔
        ∃ f ∈ files, pyExt f.filename ∉ ".zip" :: docExts
  | [], dir, resumes => by simp [processGo, isErr]
  | f :: rest, dir, resumes => by
    simp only [processGo]
    by_cases hz : pyExt f.filename = ".zip"
    · rw [if_pos hz, processGo_error_iff rest]
      constructor
      · rintro ⟨g, hg, hbad⟩
        exact ⟨g, List.mem_cons_of_mem f hg, hbad⟩
      · rintro ⟨g, hg, hbad⟩
        rcases List.mem_cons.mp hg with h | h
        · exact absurd (h ▸ hbad) (by simp [hz])
        · exact ⟨g, h, hbad⟩
    · rw [if_neg hz]
      by_cases hd : pyExt f.filename ∈ docExts
      · rw [if_pos hd, processGo_error_iff rest]
        constructor
        · rintro ⟨g, hg, hbad⟩
          exact ⟨g, List.mem_cons_of_mem f hg, hbad⟩
        · rintro ⟨g, hg, hbad⟩
          rcases List.mem_cons.mp hg with h | h
          · exact absurd (h ▸ hbad) (by simp [hd])
          · exact ⟨g, h, hbad⟩
      · rw [if_neg hd]
        simp only [isErr, true_iff]
        exact ⟨f, List.mem_cons_self f rest, by simp [hz, hd]⟩

/-- C5: ingestion fails (aborting the whole request with the unsupported
format error) exactly when some directly uploaded file has an extension
outside `{.pdf, .docx, .txt, .zip}`; an unsupported entry inside an uploaded
ZIP never fails — it is silently dropped, so a ZIP of 2 PDFs and 1 `.exe`
entry resolves to exactly 2 documents. -/
theorem claim_C5 (files : List UploadedFile) :
    (isErr (process_resume_files files) = true ↔
       ∃ f ∈ files, pyExt f.filename ∉ ".zip" :: docExts) ∧
      process_resume_files [⟨"batch.zip", [["a.pdf"], ["b.pdf"], ["evil.exe"]]⟩] =
        .ok [("a.pdf", ["a.pdf"]), ("b.pdf", ["b.pdf"])] ∧
      (match process_resume_files [⟨"batch.zip", [["a.pdf"], ["b.pdf"], ["evil.exe"]]⟩] with
        | .ok d => d.length
        | .error _ => 0) = 2 :=
  ⟨processGo_error_iff files [] [], by rfl, by rfl⟩

/-- `List.lookup` after a Python dict assignment. -/
theorem lookup_dictInsert (d : Dict β) (k k' : String) (v : β) :
    (dictInsert d k v).lookup k' = if k' = k then some v else d.lookup k' := by
  induction d with
  | nil =>
    by_cases h : k' = k
    · have hb : (k' == k) = true := beq_iff_eq.mpr h
      simp [dictInsert, List.lookup, hb, h]
    · have hb : (k' == k) = false := beq_eq_false_iff_ne.mpr h
      simp [dictInsert, List.lookup, hb, h]
  | cons a rest ih =>
    simp only [dictInsert]
    by_cases h : a.1 = k
    · rw [if_pos h]
      by_cases h' : k' = a.1
      · have hb : (k' == a.1) = true := beq_iff_eq.mpr h'
        have hb2 : (k == a.1) = true := beq_iff_eq.mpr h.symm
        have h2 : k' = k := h ▸ h'
        simp [List.lookup, hb, hb2, h2]
      · have hb : (k' == a.1) = false := beq_eq_false_iff_ne.mpr h'
        have h2 : ¬ k' = k := fun hh => h' (hh.trans h.symm)
        simp [List.lookup, hb, h2]
    · rw [if_neg h]
      by_cases h' : k' = a.1
      · have hb : (k' == a.1) = true := beq_iff_eq.mpr h'
        have h2 : ¬ k' = k := fun hh => h (h'.symm.trans hh)
        simp [List.lookup, hb, h2]
      · have hb : (k' == a.1) = false := beq_eq_false_iff_ne.mpr h'
        simp [List.lookup, hb, ih]

/-- Looking a base name up in the mapping built by the `os.walk` loop: the
value is the last file walked with that base name, or the prior binding. -/
theorem lookup_walkfold :
    ∀ (L : List FPath) (d : Dict FPath) (k : String),
      (L.foldl (fun acc p => dictInsert acc (basename p) p) d).lookup k =
        (L.reverse.find? (fun p => basename p == k)).or (d.lookup k)
  | [], d, k => by simp
  | p :: t, d, k => by
    simp only [List.foldl_cons, List.reverse_cons, List.find?_append]
    rw [lookup_walkfold t _ k, Option.or_assoc]
    congr 1
    rw [lookup_dictInsert]
    cases hpk : (basename p == k) with
    | true =>
      have h : k = basename p := (beq_iff_eq.mp hpk).symm
      simp [List.find?, hpk, h]
    | false =>
      have h : ¬ k = basename p := fun hh => by
        rw [hh] at hpk
        simp at hpk
      simp [List.find?, hpk, h]

/-- Files present in the tree survive `extractall`. -/
theorem mem_extractall :
    ∀ (entries : List FPath) (dir : List FPath) (p : FPath),
      p ∈ dir → p ∈ extractall dir entries
  | [], _, _, hp => hp
  | e :: rest, dir, p, hp => by
    apply mem_extractall rest
    simp only [dirInsert]
    split
    · exact hp
    · exact List.mem_append_left _ hp

/-- C9 (counterexample): as stated the claim fails when a ZIP entry shares
the base name of a pre-existing file but lives at another path: the walk
visits the extracted nested entry after the root file, and the dict
assignment overwrites the path, so the original basename-to-path entry does
not appear in the returned mapping. -/
theorem claim_C9_counterexample :
    (["a.pdf"] : FPath) ∈ [(["a.pdf"] : FPath)] ∧
      pyExt (basename (["a.pdf"] : FPath)) ∈ docExts ∧
      ("a.pdf", (["a.pdf"] : FPath)) ∉
        (extract_resumes_from_zip [["sub", "a.pdf"]] [["a.pdf"]]).1 := by
  refine ⟨by decide, by decide, by decide⟩

/-- C9 (amended): the ZIP expander walks the entire destination tree, so for
every supported file already present anywhere under the destination before
the call — including directly uploaded files materialized into the same
scratch directory — its base name appears among the returned mapping's keys;
the mapped path is the file's own path whenever no other file of the
post-extraction tree shares that base name (a same-named file walked later
overwrites the path, last write wins). -/
theorem claim_C9_amended (temp_dir entries : List FPath) (p : FPath)
    (hp : p ∈ temp_dir) (hext : pyExt (basename p) ∈ docExts) :
    (((extract_resumes_from_zip entries temp_dir).1.lookup (basename p)).isSome = true) ∧
      ((∀ q ∈ extractall temp_dir entries, basename q = basename p → q = p) →
        (extract_resumes_from_zip entries temp_dir).1.lookup (basename p) = some p) := by
  have hp' : p ∈ extractall temp_dir entries := mem_extractall entries temp_dir p hp
  have hpL : p ∈ (extractall temp_dir entries).filter
      (fun q => decide (pyExt (basename q) ∈ docExts)) :=
    List.mem_filter.mpr ⟨hp', by simpa using hext⟩
  have hlk : (extract_resumes_from_zip entries temp_dir).1.lookup (basename p) =
      (((extractall temp_dir entries).filter
          (fun q => decide (pyExt (basename q) ∈ docExts))).reverse.find?
        (fun q => basename q == basename p)).or none := by
    simp only [extract_resumes_from_zip, walkDocs]
    rw [lookup_walkfold]
    rfl
  have hsome : ∃ x, (((extractall temp_dir entries).filter
      (fun q => decide (pyExt (basename q) ∈ docExts))).reverse.find?
        (fun q => basename q == basename p)) = some x := by
    rw [← Option.isSome_iff_exists]
    rw [List.find?_isSome]
    exact ⟨p, List.mem_reverse.mpr hpL, by simp⟩
  obtain ⟨x, hx⟩ := hsome
  constructor
  · rw [hlk, hx]
    rfl
  · intro huniq
    have hxmem : x ∈ extractall temp_dir entries := by
      have := List.mem_of_find?_eq_some hx
      exact (List.mem_filter.mp (List.mem_reverse.mp this)).1
    have hxname : basename x = basename p := by
      have := List.find?_some hx
      simpa using this
    have hxp : x = p := huniq x hxmem hxname
    rw [hlk, hx, hxp]
    rfl

/-! ## Lemmas about the batch text collector -/

/-- Assigning a fresh key appends the pair. -/
theorem dictInsert_of_fresh (d : Dict β) (k : String) (v : β)
    (hk : k ∉ d.map Prod.fst) : dictInsert d k v = d ++ [(k, v)] := by
  induction d with
  | nil => rfl
  | cons a rest ih =>
    have h1 : ¬ a.1 = k := by
      intro h
      exact hk (by simp [h])
    simp only [dictInsert, if_neg h1, List.cons_append, List.cons.injEq, true_and]
    exact ih (by intro h; exact hk (by simp [h]))

/-- With pairwise-distinct keys, the collector is a `filterMap`: successes
keep their text, failures are dropped. -/
theorem extract_all_eq_filterMap (extractText : FPath → Except String String) :
    ∀ (resumes : Dict FPath) (acc : Dict String),
      (∀ kv ∈ resumes, kv.1 ∉ acc.map Prod.fst) →
      (resumes.map Prod.fst).Nodup →
      resumes.foldl
          (fun acc kv =>
            match extractText kv.2 with
            | .ok t => dictInsert acc kv.1 t
            | .error _ => acc)
          acc =
        acc ++ resumes.filterMap
          (fun kv =>
            match extractText kv.2 with
            | .ok t => some (kv.1, t)
            | .error _ => none)
  | [], acc, _, _ => by simp
  | kv :: rest, acc, hfresh, hnd => by
    simp only [List.foldl_cons, List.filterMap_cons]
    have hndr : (rest.map Prod.fst).Nodup := (List.nodup_cons.mp (by simpa using hnd)).2
    have hkv1 : kv.1 ∉ (rest.map Prod.fst) := (List.nodup_cons.mp (by simpa using hnd)).1
    cases hext : extractText kv.2 with
    | ok t =>
      have hins : dictInsert acc kv.1 t = acc ++ [(kv.1, t)] :=
        dictInsert_of_fresh acc kv.1 t (hfresh kv (List.mem_cons_self kv rest))
      dsimp only
      rw [hins, extract_all_eq_filterMap extractText rest (acc ++ [(kv.1, t)]) ?_ hndr]
      · simp
      · intro kv' hkv'
        simp only [List.map_append, List.mem_append]
        rintro (h | h)
        · exact hfresh kv' (List.mem_cons_of_mem kv hkv') h
        · simp only [List.map_cons, List.map_nil, List.mem_cons, List.not_mem_nil] at h
          rcases h with h | h
          · exact hkv1 (h ▸ List.mem_map_of_mem Prod.fst hkv')
          · exact h.elim
    | error e =>
      dsimp only
      rw [extract_all_eq_filterMap extractText rest acc ?_ hndr]
      intro kv' hkv'
      exact hfresh kv' (List.mem_cons_of_mem kv hkv')

/-- With pairwise-distinct keys, an association list determines values. -/
theorem keys_nodup_value_eq :
    ∀ (l : List (String × β)), (l.map Prod.fst).Nodup →
      ∀ {k : String} {v v' : β}, (k, v) ∈ l → (k, v') ∈ l → v = v'
  | [], _, _, _, _, h1, _ => by simp at h1
  | a :: rest, hnd, k, v, v', h1, h2 => by
    have hk : a.1 ∉ rest.map Prod.fst := (List.nodup_cons.mp (by simpa using hnd)).1
    have hndr : (rest.map Prod.fst).Nodup := (List.nodup_cons.mp (by simpa using hnd)).2
    rcases List.mem_cons.mp h1 with e1 | m1 <;> rcases List.mem_cons.mp h2 with e2 | m2
    · exact congrArg Prod.snd (e1.trans e2.symm)
    · exfalso
      apply hk
      have hka : k = a.1 := congrArg Prod.fst e1
      exact hka ▸ List.mem_map_of_mem Prod.fst m2
    · exfalso
      apply hk
      have hka : k = a.1 := congrArg Prod.fst e2
      exact hka ▸ List.mem_map_of_mem Prod.fst m1
    · exact keys_nodup_value_eq rest hndr m1 m2

/-- C6: the batch text collector never fails for any mapping of resolved
documents: every document whose extraction succeeds appears in the output
with its text, every document whose extraction fails is omitted without
aborting the batch, nothing else appears, and the request handlers turn an
empty collection result — and only that — into the request-level
"no extractable text" failure. -/
theorem claim_C6 (extractText : FPath → Except String String) (resumes : Dict FPath)
    (hnd : (resumes.map Prod.fst).Nodup) :
    (∀ fn p t, (fn, p) ∈ resumes → extractText p = .ok t →
        (fn, t) ∈ extract_all_resume_texts extractText resumes) ∧
      (∀ fn p, (fn, p) ∈ resumes → isErr (extractText p) = true →
        ∀ t, (fn, t) ∉ extract_all_resume_texts extractText resumes) ∧
      (∀ fn t, (fn, t) ∈ extract_all_resume_texts extractText resumes →
        ∃ p, (fn, p) ∈ resumes ∧ extractText p = .ok t) ∧
      (collectTextsOrFail extractText resumes =
        if (extract_all_resume_texts extractText resumes).isEmpty then
          .error "Could not extract text from any resume files"
        else .ok (extract_all_resume_texts extractText resumes)) := by
  have heq : extract_all_resume_texts extractText resumes =
      resumes.filterMap
        (fun kv =>
          match extractText kv.2 with
          | .ok t => some (kv.1, t)
          | .error _ => none) := by
    have := extract_all_eq_filterMap extractText resumes [] (by simp) hnd
    simpa [extract_all_resume_texts] using this
  refine ⟨?_, ?_, ?_, by rfl⟩
  · intro fn p t hmem hok
    rw [heq]
    exact List.mem_filterMap.mpr ⟨(fn, p), hmem, by simp [hok]⟩
  · intro fn p hmem herr t ht
    rw [heq] at ht
    obtain ⟨kv, hkv, hkvt⟩ := List.mem_filterMap.mp ht
    cases hext : extractText kv.2 with
    | ok u =>
      rw [hext] at hkvt
      simp only [Option.some.injEq, Prod.mk.injEq] at hkvt
      have hkfn : kv = (fn, kv.2) := by
        have : kv.1 = fn := hkvt.1
        exact Prod.ext this rfl
      have hp2 : kv.2 = p :=
        keys_nodup_value_eq resumes hnd (hkfn ▸ hkv) hmem
      rw [hp2] at hext
      rw [hext] at herr
      simp [isErr] at herr
    | error e =>
      rw [hext] at hkvt
      simp at hkvt
  · intro fn t ht
    rw [heq] at ht
    obtain ⟨kv, hkv, hkvt⟩ := List.mem_filterMap.mp ht
    cases hext : extractText kv.2 with
    | ok u =>
      rw [hext] at hkvt
      simp only [Option.some.injEq, Prod.mk.injEq] at hkvt
      refine ⟨kv.2, ?_, ?_⟩
      · have : kv = (fn, kv.2) := Prod.ext hkvt.1 rfl
        exact this ▸ hkv
      · rw [hext, hkvt.2]
    | error e =>
      rw [hext] at hkvt
      simp at hkvt

/-! ## Concrete witnesses -/

/-- Witness for C2 at one concrete resume with similarity `1/2` and no
skill/experience filters. -/
theorem claim_C2_witness :
    ∃ e ∈ [("a.txt", "hello", (1/2 : ℚ))],
      (scoreSimResume [] 0 "a.txt" "hello" (1/2)).filename = e.1 ∧
      (scoreSimResume [] 0 "a.txt" "hello" (1/2)).similarity_score = round4 e.2.2 ∧
      (scoreSimResume [] 0 "a.txt" "hello" (1/2)).bonus_score =
        round4 (if ([] : List String).length ≠ 0 ∨ 0 < (0 : Int) then
          calculate_skill_bonus e.2.1 [] 0 else 0) ∧
      (scoreSimResume [] 0 "a.txt" "hello" (1/2)).final_score =
        round4 (e.2.2 * (8/10) +
          (if ([] : List String).length ≠ 0 ∨ 0 < (0 : Int) then
            calculate_skill_bonus e.2.1 [] 0 else 0) * (2/10)) := by
  apply claim_C2 [] 0 5 [("a.txt", "hello", (1/2 : ℚ))]
  simp [rank_resumes, rankSlice, sortByScoreDesc, List.insertionSort, pyTake]

/-- Witness for C3 on a concrete four-element score list with a tie. -/
theorem claim_C3_witness :
    List.Sorted (keyGE id) (sortByScoreDesc id [(1 : ℚ), 3, 2, 3]) ∧
      (sortByScoreDesc id [(1 : ℚ), 3, 2, 3]).filter (fun x => decide (id x = (3 : ℚ))) =
        [(1 : ℚ), 3, 2, 3].filter (fun x => decide (id x = (3 : ℚ))) ∧
      rankSlice id 3 [(1 : ℚ), 3, 2, 3] = (sortByScoreDesc id [(1 : ℚ), 3, 2, 3]).take (3 : Int).toNat ∧
      (([(1 : ℚ), 3, 2, 3].length : Int) ≤ 3 → rankSlice id 3 [(1 : ℚ), 3, 2, 3] =
        sortByScoreDesc id [(1 : ℚ), 3, 2, 3]) ∧
      (rankSlice id 3 [(1 : ℚ), 3, 2, 3]).length = min (3 : Int).toNat [(1 : ℚ), 3, 2, 3].length :=
  claim_C3 id [(1 : ℚ), 3, 2, 3] 3 3 (by norm_num)

/-- Witness for C4 at one concrete resume with distribution
`[1/4, 1/2, 1/4]` over three categories. -/
theorem claim_C4_witness :
    ∃ e ∈ [("a.txt", "hello", [(1/4 : ℚ), 1/2, 1/4])],
      (classifyResume [] 0 "hello world" ["x", "y", "z"] "a.txt" "hello"
        [(1/4 : ℚ), 1/2, 1/4]).filename = e.1 ∧
      (classifyResume [] 0 "hello world" ["x", "y", "z"] "a.txt" "hello"
        [(1/4 : ℚ), 1/2, 1/4]).confidence = round4 (e.2.2.getD (argmaxIdx e.2.2) 0) ∧
      (classifyResume [] 0 "hello world" ["x", "y", "z"] "a.txt" "hello"
        [(1/4 : ℚ), 1/2, 1/4]).job_relevance =
          round4 (calculate_job_relevance e.2.1 "hello world") ∧
      (classifyResume [] 0 "hello world" ["x", "y", "z"] "a.txt" "hello"
        [(1/4 : ℚ), 1/2, 1/4]).skill_bonus =
          round4 (if ([] : List String).length ≠ 0 ∨ 0 < (0 : Int) then
            calculate_skill_bonus e.2.1 [] 0 else 0) ∧
      (classifyResume [] 0 "hello world" ["x", "y", "z"] "a.txt" "hello"
        [(1/4 : ℚ), 1/2, 1/4]).final_score =
          round4 ((e.2.2.getD (argmaxIdx e.2.2) 0) * (1/2) +
            (calculate_job_relevance e.2.1 "hello world") * (3/10) +
            (if ([] : List String).length ≠ 0 ∨ 0 < (0 : Int) then
              calculate_skill_bonus e.2.1 [] 0 else 0) * (2/10)) ∧
      ∀ p ∈ e.2.2, p ≤ e.2.2.getD (argmaxIdx e.2.2) 0 := by
  apply claim_C4 [] 0 5 "hello world" ["x", "y", "z"] [("a.txt", "hello", [(1/4 : ℚ), 1/2, 1/4])]
  simp [classify_resumes, rankSlice, sortByScoreDesc, List.insertionSort, pyTake]

/-- Witness for C6 on a two-document batch where one extraction succeeds and
the other fails. -/
theorem claim_C6_witness :
    ("a.txt", "hello") ∈ extract_all_resume_texts
        (fun p => if p = ["a.txt"] then Except.ok "hello" else Except.error "boom")
        [("a.txt", ["a.txt"]), ("b.txt", ["b.txt"])] ∧
      ("b.txt", "hello") ∉ extract_all_resume_texts
        (fun p => if p = ["a.txt"] then Except.ok "hello" else Except.error "boom")
        [("a.txt", ["a.txt"]), ("b.txt", ["b.txt"])] := by
  have h := claim_C6
    (fun p => if p = ["a.txt"] then Except.ok "hello" else Except.error "boom")
    [("a.txt", ["a.txt"]), ("b.txt", ["b.txt"])] (by decide)
  refine ⟨h.1 "a.txt" ["a.txt"] "hello" (by decide) (by rfl), ?_⟩
  exact h.2.1 "b.txt" ["b.txt"] (by decide) (by rfl) "hello"

/-- Witness for C9 on a one-file tree whose base name no archive entry
shares. -/
theorem claim_C9_witness :
    (((extract_resumes_from_zip [["b.pdf"]] [["a.pdf"]]).1.lookup
        (basename ["a.pdf"])).isSome = true) ∧
      (extract_resumes_from_zip [["b.pdf"]] [["a.pdf"]]).1.lookup (basename ["a.pdf"]) =
        some ["a.pdf"] := by
  have h := claim_C9_amended [["a.pdf"]] [["b.pdf"]] ["a.pdf"] (by decide) (by decide)
  exact ⟨h.1, h.2 (by decide)⟩

/-- Witness for C10 at `top_k = 0`, `top_k = -1` and the serializer bound at
`top_k = 5`. -/
theorem claim_C10_witness :
    rank_resumes [] 0 0 [("a.txt", "x", (1 : ℚ))] = [] ∧
      rank_resumes [] 0 (-((1 : Nat) : Int)) [("a.txt", "x", (1 : ℚ))] =
        (sortByScoreDesc SimResult.final_score ([("a.txt", "x", (1 : ℚ))].map
          (fun e => scoreSimResume [] 0 e.1 e.2.1 e.2.2))).take
          ([("a.txt", "x", (1 : ℚ))].length - 1) ∧
      (serializer_top_k_valid 5 = true ↔ 1 ≤ (5 : Int)) :=
  claim_C10 [] 0 [("a.txt", "x", (1 : ℚ))] 1 5 (by norm_num)

end CvJachai
